import Mathlib

/-
Verification of the stainless test-framework transformer core.

The crate root (src/lib.rs) declares the modules describe, parse, test,
bench and generate, but only the crate root and the integration tests are
present in the repository snapshot.  The transformer itself (raw block
tree → typed group tree → emitted container/unit tree) is therefore
modelled from the specification, as faithfully as its words allow:

  - a document is a tree of groups; a group owns an optional before_each
    hook, an optional after_each hook, and an ordered list of children
    (nested groups, test items, bench items);
  - the hierarchy builder turns raw keyword blocks into the typed tree,
    rejecting a second hook in one group (DuplicateHookError) and leaves
    lacking a description or a body (MalformedItemError);
  - the generator walks the typed tree carrying the accumulated list of
    ancestor before_each bodies (outer→inner) and after_each bodies
    (inner→outer), emits one unit per test leaf (hooks composed around
    the test body), one unit per bench leaf (body unmodified), and one
    named container per group whose first entry models the silent
    `pub use super::*;` documented in src/lib.rs;
  - the name mangler canonicalizes free-text descriptions (lowercase,
    non-identifier characters collapsed to single separators) and fails
    with IdentifierCollisionError on a sibling duplicate.

Statement bodies are opaque: a statement is a string, a body is a list of
statements, exactly as the spec treats them (relocated verbatim, never
interpreted).
-/

namespace Stainless

/-- Modelled from the spec: the kind of a test item (§3 TestItem.kind). -/
inductive TestKind where
  | Normal
  | Failing (pattern : Option String)
  | Ignored
deriving DecidableEq

mutual
/-- Modelled from the spec: a node of the typed tree built by the
hierarchy builder (§3): a named group owning optional hooks and ordered
children, or a test leaf, or a bench leaf. -/
inductive Node where
  | group (name : String) (before_each after_each : Option (List String)) (children : NodeList)
  | test (description : String) (kind : TestKind) (body : List String)
  | bench (description : String) (binding : String) (body : List String)
deriving DecidableEq

/-- An ordered sequence of tree nodes (the children of a group). -/
inductive NodeList where
  | nil
  | cons (c : Node) (rest : NodeList)
deriving DecidableEq
end

/-- Modelled from the spec: the execution kind a unit exposes (§6):
test, test-expect-failure with optional pattern, test-skip, benchmark
parameterized by the bencher binding. -/
inductive ExecKind where
  | test
  | testExpectFailure (pattern : Option String)
  | testSkip
  | benchmark (binding : String)
deriving DecidableEq

mutual
/-- Modelled from the spec (§6 Output) and the crate docs: a node of the
emitted tree — a unit (canonical identifier, execution kind, composed
body), a named container, or the silent `pub use super::*;` item the
crate docs place at the head of every generated module. -/
inductive OutNode where
  | useSuper
  | unit (ident : String) (kind : ExecKind) (body : List String)
  | container (name : String) (children : OutList)
deriving DecidableEq

/-- An ordered sequence of emitted nodes. -/
inductive OutList where
  | nil
  | cons (c : OutNode) (rest : OutList)
deriving DecidableEq
end

/-- Modelled from the spec: the error taxonomy (§7). -/
inductive TransformError where
  | SyntaxError
  | DuplicateHookError
  | MalformedItemError
  | IdentifierCollisionError
deriving DecidableEq

mutual
/-- Modelled from the spec: a raw parsed block (§4.1): keyword tag,
optional name/description, optional secondary argument, unparsed body.
Leaves carry their description and body as options so the hierarchy
builder can report MalformedItemError when one is missing. -/
inductive RawBlock where
  | describeB (name : String) (children : RawList)
  | before_eachB (body : List String)
  | after_eachB (body : List String)
  | itB (description : Option String) (body : Option (List String))
  | failingB (pattern : Option String) (description : Option String) (body : Option (List String))
  | ignoreB (description : Option String) (body : Option (List String))
  | benchB (description : Option String) (binding : String) (body : Option (List String))
deriving DecidableEq

/-- An ordered sequence of raw blocks. -/
inductive RawList where
  | nil
  | cons (c : RawBlock) (rest : RawList)
deriving DecidableEq
end

/-- Modelled from the spec (§8, `failing` property): how an executed unit
may terminate — normally, or abnormally with a message. -/
inductive Outcome where
  | normal
  | panicked (msg : String)
deriving DecidableEq

/-- Index lookup in a node sequence. -/
def NodeList.get? : NodeList → Nat → Option Node
  | .nil, _ => none
  | .cons c _, 0 => some c
  | .cons _ rest, n + 1 => rest.get? n

/-- Concatenation of node sequences. -/
def NodeList.append : NodeList → NodeList → NodeList
  | .nil, ys => ys
  | .cons x xs, ys => .cons x (xs.append ys)

/-- Append a single node at the end of a sequence. -/
def NodeList.snoc (xs : NodeList) (c : Node) : NodeList := xs.append (.cons c .nil)

/-- Index lookup in an emitted sequence. -/
def OutList.get? : OutList → Nat → Option OutNode
  | .nil, _ => none
  | .cons c _, 0 => some c
  | .cons _ rest, n + 1 => rest.get? n

/-- Characters that may appear in a generated identifier. -/
def isIdentChar (c : Char) : Bool := c.isAlphanum || c = '_'

/-- Modelled from the spec (§4.4 Name Mangler): canonicalize a character
sequence — alphanumeric characters are lowercased and kept, every run of
other characters becomes a single separator. The flag records whether
the previous emitted character was the separator, so repeats collapse. -/
def mangleAux : Bool → List Char → List Char
  | _, [] => []
  | prevSep, c :: rest =>
    if c.isAlphanum then c.toLower :: mangleAux false rest
    else if prevSep then mangleAux true rest
    else '_' :: mangleAux true rest

/-- Modelled from the spec (§4.4): the canonical identifier of a
free-text description. -/
def mangle (s : String) : String := String.mk (mangleAux true s.data)

/-- Modelled from the spec (§4.4): the mangler scoped to a container —
given the identifiers already used among the siblings, canonicalize the
description and fail with IdentifierCollisionError on a duplicate. -/
def mangleIn (used : List String) (s : String) : Except TransformError String :=
  if used.contains (mangle s) then .error .IdentifierCollisionError else .ok (mangle s)

/-- Modelled from the spec (§4.3): the execution annotation derived from
a test kind. -/
def execKindOf : TestKind → ExecKind
  | .Normal => .test
  | .Failing p => .testExpectFailure p
  | .Ignored => .testSkip

/-- The description the identifier of a node is generated from: the own
name of a group, the description of a leaf. -/
def descOf : Node → String
  | .group n _ _ _ => n
  | .test d _ _ => d
  | .bench d _ _ => d

mutual
/-- Modelled from the spec (§4.3 Hook Composer / Generator): emit the
tree for one node, given the accumulated ancestor before_each bodies
(outer→inner) and after_each bodies (inner→outer). The body of a test unit is
the concatenated before bodies, the test body, then the concatenated
after bodies; the body of a bench unit is its own body unmodified; a group
becomes a container whose children start with the silent
`pub use super::*;` item followed by one entry per child. -/
def genNode (befs afts : List (List String)) : Node → Except TransformError OutNode
  | .group n be ae cs =>
    match genList (befs ++ be.toList) (ae.toList ++ afts) [] cs with
    | .error e => .error e
    | .ok outs => .ok (.container (mangle n) (.cons .useSuper outs))
  | .test d k b => .ok (.unit (mangle d) (execKindOf k) (befs.flatten ++ b ++ afts.flatten))
  | .bench d bind b => .ok (.unit (mangle d) (.benchmark bind) b)

/-- Modelled from the spec (§4.3, §4.4): emit the trees for a sequence
of sibling children, threading the set of identifiers already used in
the enclosing container and failing with IdentifierCollisionError when a
canonicalized description duplicates one of them. -/
def genList (befs afts : List (List String)) (used : List String) :
    NodeList → Except TransformError OutList
  | .nil => .ok .nil
  | .cons c rest =>
    if used.contains (mangle (descOf c)) then .error .IdentifierCollisionError else
    match genNode befs afts c with
    | .error e => .error e
    | .ok o =>
      match genList befs afts (mangle (descOf c) :: used) rest with
      | .error e => .error e
      | .ok os => .ok (.cons o os)
end

/-- Modelled from the spec (§4.3): generate the emitted tree of a whole
document, whose root must be a group; the root group starts with no
inherited hooks. -/
def generate : Node → Except TransformError OutNode
  | .group n be ae cs =>
    match genList be.toList ae.toList [] cs with
    | .error e => .error e
    | .ok outs => .ok (.container (mangle n) (.cons .useSuper outs))
  | .test .. => .error .SyntaxError
  | .bench .. => .error .SyntaxError

/-- Modelled from the spec (§4.2): construct a test leaf, failing with
MalformedItemError when the description or the body is missing. -/
def mkTestItem (d : Option String) (k : TestKind) (b : Option (List String)) :
    Except TransformError Node :=
  match d, b with
  | some d, some b => .ok (.test d k b)
  | none, _ => .error .MalformedItemError
  | some _, none => .error .MalformedItemError

/-- Modelled from the spec (§4.2): construct a bench leaf, failing with
MalformedItemError when the description or the body is missing. -/
def mkBenchItem (d : Option String) (bind : String) (b : Option (List String)) :
    Except TransformError Node :=
  match d, b with
  | some d, some b => .ok (.bench d bind b)
  | none, _ => .error .MalformedItemError
  | some _, none => .error .MalformedItemError

mutual
/-- Modelled from the spec (§4.2 Hierarchy Builder): build the typed
group from one top-level raw block; the document root must be a describe
block. -/
def buildBlock : RawBlock → Except TransformError Node
  | .describeB n cs => buildList n none none .nil cs
  | .before_eachB _ => .error .SyntaxError
  | .after_eachB _ => .error .SyntaxError
  | .itB _ _ => .error .SyntaxError
  | .failingB _ _ _ => .error .SyntaxError
  | .ignoreB _ _ => .error .SyntaxError
  | .benchB _ _ _ => .error .SyntaxError

/-- Modelled from the spec (§4.2): fold the raw children of a group, in
order, into the typed group — nested describes recurse, hooks attach to
the group (a second one is a DuplicateHookError), leaves become typed
items. -/
def buildList (name : String) (be ae : Option (List String)) (acc : NodeList) :
    RawList → Except TransformError Node
  | .nil => .ok (.group name be ae acc)
  | .cons (.describeB n cs) rest =>
    match buildList n none none .nil cs with
    | .error e => .error e
    | .ok g => buildList name be ae (acc.snoc g) rest
  | .cons (.before_eachB b) rest =>
    match be with
    | some _ => .error .DuplicateHookError
    | none => buildList name (some b) ae acc rest
  | .cons (.after_eachB b) rest =>
    match ae with
    | some _ => .error .DuplicateHookError
    | none => buildList name be (some b) acc rest
  | .cons (.itB d b) rest =>
    match mkTestItem d .Normal b with
    | .error e => .error e
    | .ok t => buildList name be ae (acc.snoc t) rest
  | .cons (.failingB pat d b) rest =>
    match mkTestItem d (.Failing pat) b with
    | .error e => .error e
    | .ok t => buildList name be ae (acc.snoc t) rest
  | .cons (.ignoreB d b) rest =>
    match mkTestItem d .Ignored b with
    | .error e => .error e
    | .ok t => buildList name be ae (acc.snoc t) rest
  | .cons (.benchB d bind b) rest =>
    match mkBenchItem d bind b with
    | .error e => .error e
    | .ok t => buildList name be ae (acc.snoc t) rest
end

/-- Modelled from the spec (§2, §7): the whole transformation — build
the typed tree from the raw document, then generate the emitted tree.
All-or-nothing: the result is either one complete tree or one error. -/
def transform (r : RawBlock) : Except TransformError OutNode :=
  match buildBlock r with
  | .error e => .error e
  | .ok g => generate g

/-- Descend through the typed tree along a path of child indices. -/
def childAt : Node → List Nat → Option Node
  | c, [] => some c
  | .group _ _ _ cs, i :: p =>
    match cs.get? i with
    | some c => childAt c p
    | none => none
  | .test .., _ :: _ => none
  | .bench .., _ :: _ => none

/-- Descend through the emitted tree along a path of child indices. -/
def outChildAt : OutNode → List Nat → Option OutNode
  | o, [] => some o
  | .container _ cs, i :: p =>
    match cs.get? i with
    | some c => outChildAt c p
    | none => none
  | .useSuper, _ :: _ => none
  | .unit .., _ :: _ => none

/-- The before_each bodies of the groups a path passes through, in
outer→inner order (the hooks of the final node itself are not counted:
they belong to its descendants). -/
def beforesAlong : Node → List Nat → List (List String)
  | .group _ be _ cs, i :: p =>
    be.toList ++ (match cs.get? i with
      | some c => beforesAlong c p
      | none => [])
  | .group .., [] => []
  | .test .., _ => []
  | .bench .., _ => []

/-- The after_each bodies of the groups a path passes through, in
inner→outer order. -/
def aftersAlong : Node → List Nat → List (List String)
  | .group _ _ ae cs, i :: p =>
    (match cs.get? i with
      | some c => aftersAlong c p
      | none => []) ++ ae.toList
  | .group .., [] => []
  | .test .., _ => []
  | .bench .., _ => []

mutual
/-- The bodies of all units emitted anywhere inside one emitted node. -/
def unitBodiesO : OutNode → List (List String)
  | .useSuper => []
  | .unit _ _ b => [b]
  | .container _ cs => unitBodiesL cs

/-- The bodies of all units emitted anywhere inside an emitted sequence. -/
def unitBodiesL : OutList → List (List String)
  | .nil => []
  | .cons c rest => unitBodiesO c ++ unitBodiesL rest
end

mutual
/-- Does the statement occur in a hook body declared anywhere in the
subtree rooted at this node? -/
def stmtInHooksN (s : String) : Node → Bool
  | .group _ be ae cs =>
    (be.getD []).contains s || (ae.getD []).contains s || stmtInHooksL s cs
  | .test .. => false
  | .bench .. => false

/-- Does the statement occur in a hook body declared anywhere in this
sequence of subtrees? -/
def stmtInHooksL (s : String) : NodeList → Bool
  | .nil => false
  | .cons c rest => stmtInHooksN s c || stmtInHooksL s rest
end

mutual
/-- Does the statement occur anywhere in the subtree rooted at this node
(hook bodies or leaf bodies)? -/
def stmtInSubtreeN (s : String) : Node → Bool
  | .group _ be ae cs =>
    (be.getD []).contains s || (ae.getD []).contains s || stmtInSubtreeL s cs
  | .test _ _ b => b.contains s
  | .bench _ _ b => b.contains s

/-- Does the statement occur anywhere in this sequence of subtrees? -/
def stmtInSubtreeL (s : String) : NodeList → Bool
  | .nil => false
  | .cons c rest => stmtInSubtreeN s c || stmtInSubtreeL s rest
end

mutual
/-- Stated from the spec's words (§3 TestItem invariant, §4.4): within
every group of the subtree, the canonicalized descriptions of the
children are pairwise distinct — descriptions need only be unique within
their immediate enclosing group. -/
def uniqueIdsN : Node → Bool
  | .group _ _ _ cs => uniqueIdsAux [] cs
  | .test .. => true
  | .bench .. => true

/-- Stated from the spec's words (§4.4): the children's canonicalized
descriptions avoid the already-used sibling identifiers and each other,
and every nested group satisfies the same condition with a fresh scope. -/
def uniqueIdsAux (used : List String) : NodeList → Bool
  | .nil => true
  | .cons c rest =>
    !used.contains (mangle (descOf c)) && uniqueIdsN c &&
      uniqueIdsAux (mangle (descOf c) :: used) rest
end

mutual
/-- The number of test and bench leaves in the subtree rooted at a node. -/
def leafCountN : Node → Nat
  | .group _ _ _ cs => leafCountL cs
  | .test _ _ _ => 1
  | .bench _ _ _ => 1

/-- The number of test and bench leaves in a sequence of subtrees. -/
def leafCountL : NodeList → Nat
  | .nil => 0
  | .cons c rest => leafCountN c + leafCountL rest
end

mutual
/-- The number of units emitted anywhere inside one emitted node. -/
def unitCountO : OutNode → Nat
  | .useSuper => 0
  | .unit _ _ _ => 1
  | .container _ cs => unitCountL cs

/-- The number of units emitted anywhere inside an emitted sequence. -/
def unitCountL : OutList → Nat
  | .nil => 0
  | .cons c rest => unitCountO c + unitCountL rest
end

mutual
/-- The number of test and bench leaves in one raw block. -/
def rawLeafB : RawBlock → Nat
  | .describeB _ cs => rawLeafL cs
  | .before_eachB _ => 0
  | .after_eachB _ => 0
  | .itB _ _ => 1
  | .failingB _ _ _ => 1
  | .ignoreB _ _ => 1
  | .benchB _ _ _ => 1

/-- The number of test and bench leaves in a sequence of raw blocks. -/
def rawLeafL : RawList → Nat
  | .nil => 0
  | .cons c rest => rawLeafB c + rawLeafL rest
end

/-- How many before_each blocks appear among the raw children of a group. -/
def countBE : RawList → Nat
  | .nil => 0
  | .cons (.before_eachB _) rest => countBE rest + 1
  | .cons (.describeB _ _) rest => countBE rest
  | .cons (.after_eachB _) rest => countBE rest
  | .cons (.itB _ _) rest => countBE rest
  | .cons (.failingB _ _ _) rest => countBE rest
  | .cons (.ignoreB _ _) rest => countBE rest
  | .cons (.benchB _ _ _) rest => countBE rest

/-- How many after_each blocks appear among the raw children of a group. -/
def countAE : RawList → Nat
  | .nil => 0
  | .cons (.after_eachB _) rest => countAE rest + 1
  | .cons (.describeB _ _) rest => countAE rest
  | .cons (.before_eachB _) rest => countAE rest
  | .cons (.itB _ _) rest => countAE rest
  | .cons (.failingB _ _ _) rest => countAE rest
  | .cons (.ignoreB _ _) rest => countAE rest
  | .cons (.benchB _ _ _) rest => countAE rest

mutual
/-- Is a raw block well-formed on its own: a describe block has at most
one hook of each kind and well-formed children, a leaf has a description
and a body, a hook block is always fine where it is allowed. -/
def rawWfB : RawBlock → Bool
  | .describeB _ cs =>
    decide (countBE cs ≤ 1) && decide (countAE cs ≤ 1) && rawWfL cs
  | .before_eachB _ => true
  | .after_eachB _ => true
  | .itB d b => d.isSome && b.isSome
  | .failingB _ d b => d.isSome && b.isSome
  | .ignoreB d b => d.isSome && b.isSome
  | .benchB d _ b => d.isSome && b.isSome

/-- Are all raw blocks of a sequence well-formed on their own? -/
def rawWfL : RawList → Bool
  | .nil => true
  | .cons c rest => rawWfB c && rawWfL rest
end

/-- One if the optional hook is present, zero otherwise. -/
def hookCount : Option (List String) → Nat
  | some _ => 1
  | none => 0

mutual
/-- Does every container anywhere inside this emitted node begin with
the silent `pub use super::*;` item? -/
def beginsUseSuperO : OutNode → Bool
  | .container _ cs =>
    (match cs with
      | .cons .useSuper _ => true
      | _ => false) && beginsUseSuperL cs
  | _ => true

/-- Does every container anywhere inside this emitted sequence begin
with the silent `pub use super::*;` item? -/
def beginsUseSuperL : OutList → Bool
  | .nil => true
  | .cons c rest => beginsUseSuperO c && beginsUseSuperL rest
end

/-- Modelled from the spec (§4.3, §8, §9): does an outcome satisfy a
execution kind of a unit? A plain test must terminate normally; an
expect-failure unit must terminate abnormally, and when it carries a
pattern the abnormal-termination message must contain it (the spec
assumes substring match); a skipped unit and a benchmark constrain
nothing here. -/
def accepts : ExecKind → Outcome → Bool
  | .test, .normal => true
  | .test, .panicked _ => false
  | .testExpectFailure _, .normal => false
  | .testExpectFailure none, .panicked _ => true
  | .testExpectFailure (some p), .panicked m => decide (List.IsInfix p.data m.data)
  | .testSkip, _ => true
  | .benchmark _, _ => true

/-- A sample typed document: a root group with hooks and one nested
group holding a normal test, an ignored test, a failing test and a
bench, used to instantiate the general theorems on concrete input. -/
def sampleDoc : Node := .group ("top") (some ["b0"]) (some ["a0"]) (.cons
  (.group ("inner") (some ["b1"]) (some ["a1"]) (.cons
    (.test ("does the thing") .Normal ["t0"]) (.cons
    (.test ("skips") .Ignored ["t1"]) (.cons
    (.test ("blows up") (.Failing (some ("boom"))) ["t2"]) (.cons
    (.bench ("fast") ("bench_h") ["m0"]) .nil)))))
  .nil)

/-- The tree the generator emits for the sample document. -/
def sampleOut : OutNode := .container ("top") (.cons .useSuper (.cons
  (.container ("inner") (.cons .useSuper (.cons
    (.unit ("does_the_thing") .test ["b0", "b1", "t0", "a1", "a0"]) (.cons
    (.unit ("skips") .testSkip ["b0", "b1", "t1", "a1", "a0"]) (.cons
    (.unit ("blows_up") (.testExpectFailure (some ("boom"))) ["b0", "b1", "t2", "a1", "a0"]) (.cons
    (.unit ("fast") (.benchmark ("bench_h")) ["m0"]) .nil))))))
  .nil))

/-- Two sibling groups where only the first declares a hook, used to
instantiate the sibling-isolation theorem. -/
def sibChildren : NodeList := .cons
  (.group ("alpha") (some ["hA"]) none (.cons (.test ("t") .Normal ["x"]) .nil)) (.cons
  (.group ("beta") none none (.cons (.test ("t") .Normal ["y"]) .nil)) .nil)

/-- The emitted trees for the two sibling groups. -/
def sibOuts : OutList := .cons
  (.container ("alpha") (.cons .useSuper (.cons (.unit ("t") .test ["hA", "x"]) .nil))) (.cons
  (.container ("beta") (.cons .useSuper (.cons (.unit ("t") .test ["y"]) .nil))) .nil)

/-- A raw child sequence with a duplicated before_each. -/
def dupRaw : RawList := .cons (.before_eachB ["x"]) (.cons
  (.itB (some ("a")) (some ["t"])) (.cons (.before_eachB ["y"]) .nil))

/-- A raw child sequence with one hook of each kind, hooks after the
test. -/
def okRaw : RawList := .cons (.itB (some ("a")) (some ["t"])) (.cons
  (.before_eachB ["x"]) (.cons (.after_eachB ["z"]) .nil))

theorem accepts_expectFailure_normal (q : Option String) :
    accepts (.testExpectFailure q) .normal = false := by
  cases q <;> rfl

theorem toLower_not_upper (c : Char) : (Char.toLower c).isUpper = false := by
  simp only [Char.toLower]
  split_ifs with h
  · obtain ⟨h1, h2⟩ := h
    set n := Char.toNat c with hn
    interval_cases n <;> decide
  · rw [Char.isUpper]
    simp only [Bool.and_eq_false_iff, ge_iff_le, decide_eq_false_iff_not]
    by_contra hc
    push_neg at hc
    obtain ⟨hc1, hc2⟩ := hc
    exact h ⟨hc1, hc2⟩

theorem toLower_alphanum (c : Char) (h : c.isAlphanum = true) :
    (Char.toLower c).isAlphanum = true := by
  simp only [Char.toLower]
  split_ifs with hr
  · obtain ⟨h1, h2⟩ := hr
    set n := Char.toNat c with hn
    interval_cases n <;> decide
  · exact h

theorem toLower_ne_sep (c : Char) (h : c.isAlphanum = true) : Char.toLower c ≠ '_' := by
  intro he
  have := toLower_alphanum c h
  rw [he] at this
  exact absurd this (by decide)

theorem mangleAux_all (l : List Char) :
    ∀ b, ((mangleAux b l).all fun c => isIdentChar c && !c.isUpper) = true := by
  induction l with
  | nil => intro b; rfl
  | cons c rest ih =>
    intro b
    cases hc : c.isAlphanum with
    | true =>
      have h1 : isIdentChar (Char.toLower c) = true := by
        rw [isIdentChar, toLower_alphanum c hc, Bool.true_or]
      simp [mangleAux, hc, List.all_cons, h1, toLower_not_upper, ih false]
    | false =>
      cases b with
      | true => simpa [mangleAux, hc] using ih true
      | false =>
        have step : mangleAux false (c :: rest) = '_' :: mangleAux true rest := by
          simp [mangleAux, hc]
        rw [step, List.all_cons, ih true]
        decide

theorem mangleAux_true_head (l : List Char) :
    ∀ c, (mangleAux true l).head? = some c → c ≠ '_' := by
  induction l with
  | nil => intro c h; simp [mangleAux] at h
  | cons c0 rest ih =>
    intro c h
    cases hc : c0.isAlphanum with
    | true =>
      rw [mangleAux, if_pos hc, List.head?_cons] at h
      obtain rfl : Char.toLower c0 = c := by injection h
      exact toLower_ne_sep c0 hc
    | false =>
      rw [mangleAux, if_neg (by simp [hc])] at h
      exact ih c (by simpa using h)

theorem mangleAux_chain (l : List Char) :
    ∀ b, List.Chain' (fun a b => ¬(a = '_' ∧ b = '_')) (mangleAux b l) := by
  induction l with
  | nil => intro b; simp [mangleAux]
  | cons c0 rest ih =>
    intro b
    cases hc : c0.isAlphanum with
    | true =>
      rw [mangleAux, if_pos hc]
      refine List.chain'_cons'.mpr ⟨fun y _ => ?_, ih false⟩
      intro ⟨h1, _⟩
      exact toLower_ne_sep c0 hc h1
    | false =>
      cases b with
      | true =>
        rw [mangleAux, if_neg (by simp [hc])]
        simpa using ih true
      | false =>
        rw [mangleAux, if_neg (by simp [hc])]
        simp only [if_neg Bool.false_ne_true]
        refine List.chain'_cons'.mpr ⟨fun y hy => ?_, ih true⟩
        intro ⟨_, h2⟩
        exact mangleAux_true_head rest y (by simpa using hy) h2

/-- C5: identifier canonicalization is a deterministic pure function —
the mangler, run twice on the same description and the same set of
already-used sibling identifiers, yields the same result — and the
canonical identifier is lowercased (no uppercase character survives),
made of identifier characters only (every non-identifier character was
replaced by the separator), with collapsed separator repeats (no two
adjacent separators remain). -/
theorem mangler_deterministic_canonical :
    ∀ (used : List String) (s : String),
      mangleIn used s = mangleIn used s ∧
      ((mangle s).data.all fun c => isIdentChar c && !c.isUpper) = true ∧
      List.Chain' (fun a b => ¬(a = '_' ∧ b = '_')) (mangle s).data := by
  intro used s
  refine ⟨rfl, ?_, ?_⟩
  · rw [mangle]
    exact mangleAux_all s.data true
  · rw [mangle]
    exact mangleAux_chain s.data true

theorem gen_at : ∀ (cs : NodeList) (befs afts : List (List String)) (used : List String)
    (outs : OutList), genList befs afts used cs = .ok outs →
    ∀ i c, cs.get? i = some c → ∃ o, outs.get? i = some o ∧ genNode befs afts c = .ok o
  | .nil, _, _, _, _, _, i, c, hc => by simp [NodeList.get?] at hc
  | .cons c0 rest, befs, afts, used, outs, h, i, c, hc => by
    rw [genList] at h
    split at h
    · simp at h
    · split at h
      · simp at h
      · rename_i o heq
        split at h
        · simp at h
        · rename_i os heq2
          injection h with h
          subst h
          cases i with
          | zero =>
            simp only [NodeList.get?] at hc
            injection hc with hc
            subst hc
            exact ⟨o, rfl, heq⟩
          | succ i =>
            simp only [NodeList.get?] at hc
            obtain ⟨o', ho', rel⟩ := gen_at rest befs afts _ _ heq2 i c hc
            exact ⟨o', ho', rel⟩

theorem genDescend : ∀ (p : List Nat) (c : Node) (befs afts : List (List String)) (o : OutNode),
    genNode befs afts c = .ok o → ∀ c', childAt c p = some c' →
    ∃ o', outChildAt o (p.map (· + 1)) = some o' ∧
      genNode (befs ++ beforesAlong c p) (aftersAlong c p ++ afts) c' = .ok o'
  | [], c, befs, afts, o, h, c', hc => by
    rw [childAt] at hc
    injection hc with hc
    subst hc
    refine ⟨o, by cases o <;> simp [outChildAt], ?_⟩
    cases c <;> simpa [beforesAlong, aftersAlong] using h
  | i :: p, c, befs, afts, o, h, c', hc => by
    match c with
    | .test .. => simp [childAt] at hc
    | .bench .. => simp [childAt] at hc
    | .group n be ae cs =>
      rw [childAt] at hc
      cases hg : cs.get? i with
      | none => rw [hg] at hc; simp at hc
      | some cnext =>
        rw [hg] at hc
        rw [genNode] at h
        split at h
        · simp at h
        · rename_i outs hin
          injection h with h
          subst h
          obtain ⟨oi, hoi, hrel⟩ := gen_at cs _ _ _ _ hin i cnext hg
          obtain ⟨o', ho', relfinal⟩ := genDescend p cnext (befs ++ be.toList) (ae.toList ++ afts) oi hrel c' hc
          refine ⟨o', ?_, ?_⟩
          · simp only [List.map_cons, outChildAt, OutList.get?, hoi, ho']
          · simpa [beforesAlong, aftersAlong, hg, List.append_assoc] using relfinal

theorem generate_group_eq (n : String) (be ae : Option (List String)) (cs : NodeList) :
    generate (.group n be ae cs) = genNode [] [] (.group n be ae cs) := by
  rw [generate, genNode]
  simp

theorem generate_ok_group : ∀ (g : Node) (out : OutNode), generate g = .ok out →
    ∃ n be ae cs, g = .group n be ae cs ∧ genNode [] [] g = .ok out := by
  intro g out h
  cases g with
  | test d k b => rw [generate] at h; simp at h
  | bench d bind b => rw [generate] at h; simp at h
  | group n be ae cs =>
    refine ⟨n, be, ae, cs, rfl, ?_⟩
    rw [← generate_group_eq]
    exact h

/-- C1: for every document and every test leaf reached by a path of
child indices, the emitted unit (found in the output tree along the same
path, shifted by one to account for the leading `pub use super`) has as
its body exactly the concatenation of the ancestor before_each bodies in
outer→inner order, then the own body of the test, then the ancestor
after_each bodies in inner→outer order. -/
theorem test_body_composition :
    ∀ (g : Node) (p : List Nat) (d : String) (k : TestKind) (b : List String) (out : OutNode),
      generate g = .ok out → childAt g p = some (.test d k b) →
      outChildAt out (p.map (· + 1)) =
        some (.unit (mangle d) (execKindOf k)
          ((beforesAlong g p).flatten ++ b ++ (aftersAlong g p).flatten)) := by
  intro g p d k b out hg hc
  obtain ⟨n, be, ae, cs, rfl, hg'⟩ := generate_ok_group g out hg
  obtain ⟨o', ho', hrel⟩ := genDescend p _ [] [] out hg' _ hc
  rw [genNode] at hrel
  injection hrel with hrel
  rw [ho', ← hrel]
  simp

/-- C2: for every document and every bench leaf reached by a path of
child indices, the body of the emitted benchmark unit is the own
body unmodified — no before_each or after_each body from any ancestor
group appears in it. -/
theorem bench_body_unmodified :
    ∀ (g : Node) (p : List Nat) (d bind : String) (b : List String) (out : OutNode),
      generate g = .ok out → childAt g p = some (.bench d bind b) →
      outChildAt out (p.map (· + 1)) = some (.unit (mangle d) (.benchmark bind) b) := by
  intro g p d bind b out hg hc
  obtain ⟨n, be, ae, cs, rfl, hg'⟩ := generate_ok_group g out hg
  obtain ⟨o', ho', hrel⟩ := genDescend p _ [] [] out hg' _ hc
  rw [genNode] at hrel
  injection hrel with hrel
  rw [ho', ← hrel]

/-- C7: for every test leaf of kind Ignored, the generator still emits a
unit at the corresponding place of the output tree — it is present, not
omitted — and it is marked skipped-by-default (execution kind
test-skip). -/
theorem ignored_unit_present_skipped :
    ∀ (g : Node) (p : List Nat) (d : String) (b : List String) (out : OutNode),
      generate g = .ok out → childAt g p = some (.test d .Ignored b) →
      ∃ body, outChildAt out (p.map (· + 1)) = some (.unit (mangle d) .testSkip body) := by
  intro g p d b out hg hc
  obtain ⟨n, be, ae, cs, rfl, hg'⟩ := generate_ok_group g out hg
  obtain ⟨o', ho', hrel⟩ := genDescend p _ [] [] out hg' _ hc
  rw [genNode] at hrel
  injection hrel with hrel
  exact ⟨_, by rw [ho', ← hrel]; rfl⟩

/-- C8: for every test leaf of kind Failing, the emitted unit carries
the expect-failure execution kind with the optional pattern of the leaf; an
expect-failure unit with no pattern accepts any abnormal termination and
rejects normal termination, and one with pattern p additionally requires
the abnormal-termination message to contain p. -/
theorem failing_unit_expects_failure :
    ∀ (g : Node) (p : List Nat) (d : String) (pat : Option String) (b : List String)
      (out : OutNode),
      generate g = .ok out → childAt g p = some (.test d (.Failing pat) b) →
      (∃ body, outChildAt out (p.map (· + 1)) =
          some (.unit (mangle d) (.testExpectFailure pat) body)) ∧
      (∀ m, accepts (.testExpectFailure none) (.panicked m) = true) ∧
      (∀ q, accepts (.testExpectFailure q) .normal = false) ∧
      (∀ q m, accepts (.testExpectFailure (some q)) (.panicked m) =
        decide (List.IsInfix q.data m.data)) := by
  intro g p d pat b out hg hc
  refine ⟨?_, fun m => rfl, fun q => by cases q <;> rfl, fun q m => rfl⟩
  obtain ⟨n, be, ae, cs, rfl, hg'⟩ := generate_ok_group g out hg
  obtain ⟨o', ho', hrel⟩ := genDescend p _ [] [] out hg' _ hc
  rw [genNode] at hrel
  injection hrel with hrel
  exact ⟨_, by rw [ho', ← hrel]; rfl⟩

theorem toList_flatten_getD (o : Option (List String)) : o.toList.flatten = o.getD [] := by
  cases o <;> simp

mutual
theorem provNode : ∀ (c : Node) (befs afts : List (List String)) (o : OutNode),
    genNode befs afts c = .ok o → ∀ body ∈ unitBodiesO o, ∀ s ∈ body,
      s ∈ befs.flatten ∨ s ∈ afts.flatten ∨ stmtInSubtreeN s c = true
  | .group n be ae cs, befs, afts, o, h, body, hbody, s, hs => by
    rw [genNode] at h
    split at h
    · simp at h
    · rename_i outs hin
      injection h with h
      subst h
      rw [unitBodiesO, unitBodiesL, unitBodiesO, List.nil_append] at hbody
      rcases provNode2 cs _ _ _ _ hin body hbody s hs with h1 | h2 | h3
      · rw [List.flatten_append, List.mem_append] at h1
        rcases h1 with h1 | h1
        · exact Or.inl h1
        · refine Or.inr (Or.inr ?_)
          rw [toList_flatten_getD] at h1
          simp [stmtInSubtreeN, List.contains, h1]
      · rw [List.flatten_append, List.mem_append] at h2
        rcases h2 with h2 | h2
        · refine Or.inr (Or.inr ?_)
          rw [toList_flatten_getD] at h2
          simp [stmtInSubtreeN, List.contains, h2]
        · exact Or.inr (Or.inl h2)
      · exact Or.inr (Or.inr (by simp [stmtInSubtreeN, h3]))
  | .test d k b, befs, afts, o, h, body, hbody, s, hs => by
    rw [genNode] at h
    injection h with h
    subst h
    rw [unitBodiesO, List.mem_singleton] at hbody
    subst hbody
    rw [List.mem_append, List.mem_append] at hs
    rcases hs with (hs | hs) | hs
    · exact Or.inl hs
    · exact Or.inr (Or.inr (by simp [stmtInSubtreeN, List.contains, hs]))
    · exact Or.inr (Or.inl hs)
  | .bench d bind b, befs, afts, o, h, body, hbody, s, hs => by
    rw [genNode] at h
    injection h with h
    subst h
    rw [unitBodiesO, List.mem_singleton] at hbody
    subst hbody
    exact Or.inr (Or.inr (by simp [stmtInSubtreeN, List.contains, hs]))

theorem provNode2 : ∀ (cs : NodeList) (befs afts : List (List String)) (used : List String)
    (outs : OutList), genList befs afts used cs = .ok outs →
    ∀ body ∈ unitBodiesL outs, ∀ s ∈ body,
      s ∈ befs.flatten ∨ s ∈ afts.flatten ∨ stmtInSubtreeL s cs = true
  | .nil, _, _, _, outs, h, body, hbody, s, _ => by
    rw [genList] at h
    injection h with h
    subst h
    rw [unitBodiesL] at hbody
    simp at hbody
  | .cons c0 rest, befs, afts, used, outs, h, body, hbody, s, hs => by
    rw [genList] at h
    split at h
    · simp at h
    · split at h
      · simp at h
      · rename_i o heq
        split at h
        · simp at h
        · rename_i os heq2
          injection h with h
          subst h
          rw [unitBodiesL, List.mem_append] at hbody
          rcases hbody with hbody | hbody
          · rcases provNode c0 _ _ _ heq body hbody s hs with h1 | h2 | h3
            · exact Or.inl h1
            · exact Or.inr (Or.inl h2)
            · exact Or.inr (Or.inr (by simp [stmtInSubtreeL, h3]))
          · rcases provNode2 rest _ _ _ _ heq2 body hbody s hs with h1 | h2 | h3
            · exact Or.inl h1
            · exact Or.inr (Or.inl h2)
            · exact Or.inr (Or.inr (by simp [stmtInSubtreeL, h3]))
end

/-- C3: sibling subtrees never observe hooks of each other — given two
children A and B of the same parent (generated under the same inherited
hook context), a statement that occurs in a hook declared in A or in any
descendant of A, but nowhere in the subtree of B and not in the inherited
context, does not occur in the body of any unit emitted under B. -/
theorem sibling_hooks_isolated :
    ∀ (befs afts : List (List String)) (used : List String) (cs : NodeList) (outs : OutList),
      genList befs afts used cs = .ok outs →
      ∀ (iA iB : Nat) (A B : Node), cs.get? iA = some A → cs.get? iB = some B →
      ∀ (s : String), stmtInHooksN s A = true → stmtInSubtreeN s B = false →
      s ∉ befs.flatten → s ∉ afts.flatten →
      ∀ oB, outs.get? iB = some oB → ∀ body ∈ unitBodiesO oB, s ∉ body := by
  intro befs afts used cs outs h iA iB A B hA hB s hsA hsB hbef haft oB hoB body hbody hs
  obtain ⟨o, ho, rel⟩ := gen_at cs befs afts used outs h iB B hB
  rw [ho] at hoB
  injection hoB with hoB
  rw [← hoB] at hbody
  rcases provNode B befs afts o rel body hbody s hs with h1 | h2 | h3
  · exact hbef h1
  · exact haft h2
  · rw [hsB] at h3
    exact Bool.false_ne_true h3

mutual
theorem genOkN : ∀ (c : Node) (befs afts : List (List String)),
    (uniqueIdsN c = true → ∃ o, genNode befs afts c = .ok o) ∧
    (uniqueIdsN c = false → genNode befs afts c = .error .IdentifierCollisionError)
  | .group n be ae cs, befs, afts => by
    constructor
    · intro hu
      rw [uniqueIdsN] at hu
      obtain ⟨outs, houts⟩ := (genOkL cs (befs ++ be.toList) (ae.toList ++ afts) []).1 hu
      exact ⟨_, by rw [genNode, houts]⟩
    · intro hu
      rw [uniqueIdsN] at hu
      have herr := (genOkL cs (befs ++ be.toList) (ae.toList ++ afts) []).2 hu
      rw [genNode, herr]
  | .test d k b, befs, afts => by
    refine ⟨fun _ => ⟨_, rfl⟩, fun hf => ?_⟩
    rw [uniqueIdsN] at hf
    exact absurd hf (by simp)
  | .bench d bind b, befs, afts => by
    refine ⟨fun _ => ⟨_, rfl⟩, fun hf => ?_⟩
    rw [uniqueIdsN] at hf
    exact absurd hf (by simp)

theorem genOkL : ∀ (cs : NodeList) (befs afts : List (List String)) (used : List String),
    (uniqueIdsAux used cs = true → ∃ outs, genList befs afts used cs = .ok outs) ∧
    (uniqueIdsAux used cs = false → genList befs afts used cs = .error .IdentifierCollisionError)
  | .nil, befs, afts, used => by
    refine ⟨fun _ => ⟨.nil, rfl⟩, fun hf => ?_⟩
    rw [uniqueIdsAux] at hf
    exact absurd hf (by simp)
  | .cons c0 rest, befs, afts, used => by
    rw [uniqueIdsAux, genList]
    cases hcont : used.contains (mangle (descOf c0)) with
    | true =>
      simp only [Bool.not_true, Bool.false_and, if_pos rfl]
      exact ⟨fun hf => absurd hf (by simp), fun _ => rfl⟩
    | false =>
      simp only [Bool.not_false, Bool.true_and, if_neg Bool.false_ne_true]
      cases h1 : uniqueIdsN c0 with
      | false =>
        have herr := (genOkN c0 befs afts).2 h1
        rw [herr]
        exact ⟨fun hf => absurd hf (by simp), fun _ => rfl⟩
      | true =>
        obtain ⟨o, ho⟩ := (genOkN c0 befs afts).1 h1
        rw [ho]
        simp only [Bool.true_and]
        cases h2 : uniqueIdsAux (mangle (descOf c0) :: used) rest with
        | false =>
          have herr := (genOkL rest befs afts (mangle (descOf c0) :: used)).2 h2
          rw [herr]
          exact ⟨fun hf => absurd hf (by simp), fun _ => rfl⟩
        | true =>
          obtain ⟨os, hos⟩ := (genOkL rest befs afts (mangle (descOf c0) :: used)).1 h2
          rw [hos]
          exact ⟨fun _ => ⟨_, rfl⟩, fun hf => absurd hf (by simp)⟩
end

/-- C6: identifier collisions are scoped to the immediate enclosing
group — generation of a document succeeds exactly when, in every group
of the tree, the canonicalized descriptions of the sibling children are
pairwise distinct (each nested group is checked in a fresh scope, so
equal descriptions in different groups are accepted), and it fails with
IdentifierCollisionError exactly when some group has two sibling
children whose descriptions canonicalize to the same identifier. -/
theorem identifier_collision_scoped :
    ∀ (n : String) (be ae : Option (List String)) (cs : NodeList),
      ((∃ out, generate (.group n be ae cs) = .ok out) ↔ uniqueIdsAux [] cs = true) ∧
      (generate (.group n be ae cs) = .error .IdentifierCollisionError ↔
        uniqueIdsAux [] cs = false) := by
  intro n be ae cs
  rw [generate_group_eq]
  have hN := genOkN (.group n be ae cs) [] []
  rw [uniqueIdsN] at hN
  cases hu : uniqueIdsAux [] cs with
  | true =>
    obtain ⟨o, ho⟩ := hN.1 hu
    refine ⟨⟨fun _ => rfl, fun _ => ⟨o, ho⟩⟩, ⟨fun he => ?_, fun hf => absurd hf (by simp)⟩⟩
    rw [ho] at he
    exact absurd he (by simp)
  | false =>
    have herr := hN.2 hu
    refine ⟨⟨fun ⟨o, ho⟩ => ?_, fun ht => absurd ht (by simp)⟩, ⟨fun _ => rfl, fun _ => herr⟩⟩
    rw [herr] at ho
    exact absurd ho (by simp)

mutual
theorem useSuperN : ∀ (c : Node) (befs afts : List (List String)) (o : OutNode),
    genNode befs afts c = .ok o → beginsUseSuperO o = true
  | .group n be ae cs, befs, afts, o, h => by
    rw [genNode] at h
    split at h
    · simp at h
    · rename_i outs hin
      injection h with h
      subst h
      have hl := useSuperL cs _ _ _ _ hin
      simp [beginsUseSuperO, beginsUseSuperL, hl]
  | .test d k b, befs, afts, o, h => by
    rw [genNode] at h
    injection h with h
    subst h
    rfl
  | .bench d bind b, befs, afts, o, h => by
    rw [genNode] at h
    injection h with h
    subst h
    rfl

theorem useSuperL : ∀ (cs : NodeList) (befs afts : List (List String)) (used : List String)
    (outs : OutList), genList befs afts used cs = .ok outs → beginsUseSuperL outs = true
  | .nil, _, _, _, outs, h => by
    rw [genList] at h
    injection h with h
    subst h
    rfl
  | .cons c0 rest, befs, afts, used, outs, h => by
    rw [genList] at h
    split at h
    · simp at h
    · split at h
      · simp at h
      · rename_i o heq
        split at h
        · simp at h
        · rename_i os heq2
          injection h with h
          subst h
          rw [beginsUseSuperL, useSuperN c0 _ _ _ heq, useSuperL rest _ _ _ _ heq2]
          rfl
end

/-- C10: every module generated for a describe block begins with the
silent `pub use super` re-export item — in every container of the
emitted tree, at every nesting depth, the first child is that item. -/
theorem every_container_begins_use_super :
    ∀ (g : Node) (out : OutNode), generate g = .ok out → beginsUseSuperO out = true := by
  intro g out hg
  obtain ⟨n, be, ae, cs, rfl, hg'⟩ := generate_ok_group g out hg
  exact useSuperN _ [] [] out hg'

theorem leafCountL_append : ∀ (a b : NodeList),
    leafCountL (a.append b) = leafCountL a + leafCountL b
  | .nil, b => by rw [NodeList.append, leafCountL]; omega
  | .cons x xs, b => by
    rw [NodeList.append, leafCountL, leafCountL, leafCountL_append xs b]
    omega

theorem leafCountL_snoc (a : NodeList) (c : Node) :
    leafCountL (a.snoc c) = leafCountL a + leafCountN c := by
  rw [NodeList.snoc, leafCountL_append, leafCountL, leafCountL]
  omega

mutual
theorem genCountN : ∀ (c : Node) (befs afts : List (List String)) (o : OutNode),
    genNode befs afts c = .ok o → unitCountO o = leafCountN c
  | .group n be ae cs, befs, afts, o, h => by
    rw [genNode] at h
    split at h
    · simp at h
    · rename_i outs hin
      injection h with h
      subst h
      rw [unitCountO, unitCountL, unitCountO, leafCountN, genCountL cs _ _ _ _ hin]
      omega
  | .test d k b, befs, afts, o, h => by
    rw [genNode] at h
    injection h with h
    subst h
    rfl
  | .bench d bind b, befs, afts, o, h => by
    rw [genNode] at h
    injection h with h
    subst h
    rfl

theorem genCountL : ∀ (cs : NodeList) (befs afts : List (List String)) (used : List String)
    (outs : OutList), genList befs afts used cs = .ok outs → unitCountL outs = leafCountL cs
  | .nil, _, _, _, outs, h => by
    rw [genList] at h
    injection h with h
    subst h
    rfl
  | .cons c0 rest, befs, afts, used, outs, h => by
    rw [genList] at h
    split at h
    · simp at h
    · split at h
      · simp at h
      · rename_i o heq
        split at h
        · simp at h
        · rename_i os heq2
          injection h with h
          subst h
          rw [unitCountL, leafCountL, genCountN c0 _ _ _ heq, genCountL rest _ _ _ _ heq2]
end

theorem mk_test_leaf (d : Option String) (k : TestKind) (b : Option (List String)) (t : Node)
    (h : mkTestItem d k b = .ok t) : leafCountN t = 1 := by
  cases d <;> cases b <;> simp [mkTestItem] at h
  rw [← h]
  rfl

theorem mk_bench_leaf (d : Option String) (bind : String) (b : Option (List String)) (t : Node)
    (h : mkBenchItem d bind b = .ok t) : leafCountN t = 1 := by
  cases d <;> cases b <;> simp [mkBenchItem] at h
  rw [← h]
  rfl

theorem buildCountL : ∀ (cs : RawList) (name : String) (be ae : Option (List String))
    (acc : NodeList) (g : Node), buildList name be ae acc cs = .ok g →
    leafCountN g = leafCountL acc + rawLeafL cs
  | .nil, name, be, ae, acc, g, h => by
    rw [buildList] at h
    injection h with h
    subst h
    rw [leafCountN, rawLeafL]
    omega
  | .cons (.describeB n cs2) rest, name, be, ae, acc, g, h => by
    rw [buildList] at h
    split at h
    · simp at h
    · rename_i g2 heq
      have ih1 := buildCountL cs2 n none none .nil g2 heq
      have ih2 := buildCountL rest name be ae (acc.snoc g2) g h
      rw [leafCountL] at ih1
      rw [ih2, leafCountL_snoc, rawLeafL, rawLeafB, ih1]
      omega
  | .cons (.before_eachB b) rest, name, be, ae, acc, g, h => by
    cases be with
    | some x => rw [buildList] at h; simp at h
    | none =>
      rw [buildList] at h
      have ih := buildCountL rest name (some b) ae acc g h
      rw [ih, rawLeafL, rawLeafB]
      omega
  | .cons (.after_eachB b) rest, name, be, ae, acc, g, h => by
    cases ae with
    | some x => rw [buildList] at h; simp at h
    | none =>
      rw [buildList] at h
      have ih := buildCountL rest name be (some b) acc g h
      rw [ih, rawLeafL, rawLeafB]
      omega
  | .cons (.itB d b) rest, name, be, ae, acc, g, h => by
    rw [buildList] at h
    split at h
    · simp at h
    · rename_i t heq
      have ih := buildCountL rest name be ae (acc.snoc t) g h
      rw [ih, leafCountL_snoc, mk_test_leaf d _ b t heq, rawLeafL, rawLeafB]
      omega
  | .cons (.failingB pat d b) rest, name, be, ae, acc, g, h => by
    rw [buildList] at h
    split at h
    · simp at h
    · rename_i t heq
      have ih := buildCountL rest name be ae (acc.snoc t) g h
      rw [ih, leafCountL_snoc, mk_test_leaf d _ b t heq, rawLeafL, rawLeafB]
      omega
  | .cons (.ignoreB d b) rest, name, be, ae, acc, g, h => by
    rw [buildList] at h
    split at h
    · simp at h
    · rename_i t heq
      have ih := buildCountL rest name be ae (acc.snoc t) g h
      rw [ih, leafCountL_snoc, mk_test_leaf d _ b t heq, rawLeafL, rawLeafB]
      omega
  | .cons (.benchB d bind b) rest, name, be, ae, acc, g, h => by
    rw [buildList] at h
    split at h
    · simp at h
    · rename_i t heq
      have ih := buildCountL rest name be ae (acc.snoc t) g h
      rw [ih, leafCountL_snoc, mk_bench_leaf d bind b t heq, rawLeafL, rawLeafB]
      omega

theorem buildCountB : ∀ (r : RawBlock) (g : Node), buildBlock r = .ok g →
    leafCountN g = rawLeafB r := by
  intro r g h
  match r with
  | .describeB n cs =>
    rw [buildBlock] at h
    have := buildCountL cs n none none .nil g h
    rw [this, leafCountL, rawLeafB]
    omega
  | .before_eachB b => rw [buildBlock] at h; simp at h
  | .after_eachB b => rw [buildBlock] at h; simp at h
  | .itB d b => rw [buildBlock] at h; simp at h
  | .failingB pat d b => rw [buildBlock] at h; simp at h
  | .ignoreB d b => rw [buildBlock] at h; simp at h
  | .benchB d bind b => rw [buildBlock] at h; simp at h

/-- C9: the transformation is all-or-nothing per document — for every
input document it either fails with exactly one reported error from the
taxonomy, or it succeeds with a complete tree containing exactly one
emitted unit per test or bench leaf of the document (no partial subset
of units is ever produced). -/
theorem transform_all_or_nothing :
    ∀ (r : RawBlock), (∃ e, transform r = .error e) ∨
      (∃ out, transform r = .ok out ∧ unitCountO out = rawLeafB r) := by
  intro r
  cases htr : transform r with
  | error e => exact Or.inl ⟨e, rfl⟩
  | ok out =>
    refine Or.inr ⟨out, rfl, ?_⟩
    rw [transform] at htr
    cases hb : buildBlock r with
    | error e => rw [hb] at htr; simp at htr
    | ok g =>
      rw [hb] at htr
      obtain ⟨n, be, ae, cs, hgeq, hgen⟩ := generate_ok_group g out htr
      rw [genCountN g [] [] out hgen, buildCountB r g hb]

theorem mk_test_ok (d : Option String) (k : TestKind) (b : Option (List String))
    (hd : d.isSome = true) (hb : b.isSome = true) : ∃ t, mkTestItem d k b = .ok t := by
  cases d with
  | none => simp at hd
  | some d0 =>
    cases b with
    | none => simp at hb
    | some b0 => exact ⟨_, rfl⟩

theorem mk_bench_ok (d : Option String) (bind : String) (b : Option (List String))
    (hd : d.isSome = true) (hb : b.isSome = true) : ∃ t, mkBenchItem d bind b = .ok t := by
  cases d with
  | none => simp at hd
  | some d0 =>
    cases b with
    | none => simp at hb
    | some b0 => exact ⟨_, rfl⟩

theorem build_ok : ∀ (cs : RawList) (name : String) (be ae : Option (List String))
    (acc : NodeList), rawWfL cs = true →
    countBE cs + hookCount be ≤ 1 → countAE cs + hookCount ae ≤ 1 →
    ∃ g, buildList name be ae acc cs = .ok g
  | .nil, name, be, ae, acc, _, _, _ => ⟨_, by rw [buildList]⟩
  | .cons (.describeB n cs2) rest, name, be, ae, acc, hwf, hbe, hae => by
    rw [rawWfL, Bool.and_eq_true] at hwf
    obtain ⟨hwfB, hwfL⟩ := hwf
    rw [rawWfB, Bool.and_eq_true, Bool.and_eq_true] at hwfB
    obtain ⟨⟨hc1, hc2⟩, hwfC⟩ := hwfB
    rw [decide_eq_true_eq] at hc1 hc2
    obtain ⟨g2, hg2⟩ := build_ok cs2 n none none .nil hwfC
      (by rw [hookCount]; omega) (by rw [hookCount]; omega)
    rw [countBE] at hbe
    rw [countAE] at hae
    obtain ⟨g, hg⟩ := build_ok rest name be ae (acc.snoc g2) hwfL hbe hae
    exact ⟨g, by rw [buildList, hg2]; exact hg⟩
  | .cons (.before_eachB b) rest, name, be, ae, acc, hwf, hbe, hae => by
    rw [rawWfL, Bool.and_eq_true] at hwf
    obtain ⟨_, hwfL⟩ := hwf
    rw [countBE] at hbe
    rw [countAE] at hae
    cases be with
    | some x => rw [hookCount] at hbe; exact absurd hbe (by omega)
    | none =>
      rw [hookCount] at hbe
      obtain ⟨g, hg⟩ :=
        build_ok rest name (some b) ae acc hwfL (by rw [hookCount]; omega) hae
      exact ⟨g, by rw [buildList]; exact hg⟩
  | .cons (.after_eachB b) rest, name, be, ae, acc, hwf, hbe, hae => by
    rw [rawWfL, Bool.and_eq_true] at hwf
    obtain ⟨_, hwfL⟩ := hwf
    rw [countBE] at hbe
    rw [countAE] at hae
    cases ae with
    | some x => rw [hookCount] at hae; exact absurd hae (by omega)
    | none =>
      rw [hookCount] at hae
      obtain ⟨g, hg⟩ :=
        build_ok rest name be (some b) acc hwfL hbe (by rw [hookCount]; omega)
      exact ⟨g, by rw [buildList]; exact hg⟩
  | .cons (.itB d b) rest, name, be, ae, acc, hwf, hbe, hae => by
    rw [rawWfL, Bool.and_eq_true] at hwf
    obtain ⟨hwfB, hwfL⟩ := hwf
    rw [rawWfB, Bool.and_eq_true] at hwfB
    obtain ⟨hd, hb⟩ := hwfB
    obtain ⟨t, ht⟩ := mk_test_ok d .Normal b hd hb
    rw [countBE] at hbe
    rw [countAE] at hae
    obtain ⟨g, hg⟩ := build_ok rest name be ae (acc.snoc t) hwfL hbe hae
    exact ⟨g, by rw [buildList, ht]; exact hg⟩
  | .cons (.failingB pat d b) rest, name, be, ae, acc, hwf, hbe, hae => by
    rw [rawWfL, Bool.and_eq_true] at hwf
    obtain ⟨hwfB, hwfL⟩ := hwf
    rw [rawWfB, Bool.and_eq_true] at hwfB
    obtain ⟨hd, hb⟩ := hwfB
    obtain ⟨t, ht⟩ := mk_test_ok d (.Failing pat) b hd hb
    rw [countBE] at hbe
    rw [countAE] at hae
    obtain ⟨g, hg⟩ := build_ok rest name be ae (acc.snoc t) hwfL hbe hae
    exact ⟨g, by rw [buildList, ht]; exact hg⟩
  | .cons (.ignoreB d b) rest, name, be, ae, acc, hwf, hbe, hae => by
    rw [rawWfL, Bool.and_eq_true] at hwf
    obtain ⟨hwfB, hwfL⟩ := hwf
    rw [rawWfB, Bool.and_eq_true] at hwfB
    obtain ⟨hd, hb⟩ := hwfB
    obtain ⟨t, ht⟩ := mk_test_ok d .Ignored b hd hb
    rw [countBE] at hbe
    rw [countAE] at hae
    obtain ⟨g, hg⟩ := build_ok rest name be ae (acc.snoc t) hwfL hbe hae
    exact ⟨g, by rw [buildList, ht]; exact hg⟩
  | .cons (.benchB d bind b) rest, name, be, ae, acc, hwf, hbe, hae => by
    rw [rawWfL, Bool.and_eq_true] at hwf
    obtain ⟨hwfB, hwfL⟩ := hwf
    rw [rawWfB, Bool.and_eq_true] at hwfB
    obtain ⟨hd, hb⟩ := hwfB
    obtain ⟨t, ht⟩ := mk_bench_ok d bind b hd hb
    rw [countBE] at hbe
    rw [countAE] at hae
    obtain ⟨g, hg⟩ := build_ok rest name be ae (acc.snoc t) hwfL hbe hae
    exact ⟨g, by rw [buildList, ht]; exact hg⟩

theorem build_dup : ∀ (cs : RawList) (name : String) (be ae : Option (List String))
    (acc : NodeList), rawWfL cs = true →
    (2 ≤ countBE cs + hookCount be ∨ 2 ≤ countAE cs + hookCount ae) →
    buildList name be ae acc cs = .error .DuplicateHookError
  | .nil, name, be, ae, acc, _, hcond => by
    exfalso
    rcases hcond with h | h
    · rw [countBE] at h
      cases be <;> rw [hookCount] at h <;> omega
    · rw [countAE] at h
      cases ae <;> rw [hookCount] at h <;> omega
  | .cons (.describeB n cs2) rest, name, be, ae, acc, hwf, hcond => by
    rw [rawWfL, Bool.and_eq_true] at hwf
    obtain ⟨hwfB, hwfL⟩ := hwf
    rw [rawWfB, Bool.and_eq_true, Bool.and_eq_true] at hwfB
    obtain ⟨⟨hc1, hc2⟩, hwfC⟩ := hwfB
    rw [decide_eq_true_eq] at hc1 hc2
    obtain ⟨g2, hg2⟩ := build_ok cs2 n none none .nil hwfC
      (by rw [hookCount]; omega) (by rw [hookCount]; omega)
    rw [countBE, countAE] at hcond
    rw [buildList, hg2]
    exact build_dup rest name be ae (acc.snoc g2) hwfL hcond
  | .cons (.before_eachB b) rest, name, be, ae, acc, hwf, hcond => by
    rw [rawWfL, Bool.and_eq_true] at hwf
    obtain ⟨_, hwfL⟩ := hwf
    cases be with
    | some x => rw [buildList]
    | none =>
      rw [buildList]
      refine build_dup rest name (some b) ae acc hwfL ?_
      rw [countBE, countAE] at hcond
      rcases hcond with h | h
      · rw [hookCount] at h
        exact Or.inl (by rw [hookCount]; omega)
      · exact Or.inr h
  | .cons (.after_eachB b) rest, name, be, ae, acc, hwf, hcond => by
    rw [rawWfL, Bool.and_eq_true] at hwf
    obtain ⟨_, hwfL⟩ := hwf
    cases ae with
    | some x => rw [buildList]
    | none =>
      rw [buildList]
      refine build_dup rest name be (some b) acc hwfL ?_
      rw [countBE, countAE] at hcond
      rcases hcond with h | h
      · exact Or.inl h
      · rw [hookCount] at h
        exact Or.inr (by rw [hookCount]; omega)
  | .cons (.itB d b) rest, name, be, ae, acc, hwf, hcond => by
    rw [rawWfL, Bool.and_eq_true] at hwf
    obtain ⟨hwfB, hwfL⟩ := hwf
    rw [rawWfB, Bool.and_eq_true] at hwfB
    obtain ⟨hd, hb⟩ := hwfB
    obtain ⟨t, ht⟩ := mk_test_ok d .Normal b hd hb
    rw [countBE, countAE] at hcond
    rw [buildList, ht]
    exact build_dup rest name be ae (acc.snoc t) hwfL hcond
  | .cons (.failingB pat d b) rest, name, be, ae, acc, hwf, hcond => by
    rw [rawWfL, Bool.and_eq_true] at hwf
    obtain ⟨hwfB, hwfL⟩ := hwf
    rw [rawWfB, Bool.and_eq_true] at hwfB
    obtain ⟨hd, hb⟩ := hwfB
    obtain ⟨t, ht⟩ := mk_test_ok d (.Failing pat) b hd hb
    rw [countBE, countAE] at hcond
    rw [buildList, ht]
    exact build_dup rest name be ae (acc.snoc t) hwfL hcond
  | .cons (.ignoreB d b) rest, name, be, ae, acc, hwf, hcond => by
    rw [rawWfL, Bool.and_eq_true] at hwf
    obtain ⟨hwfB, hwfL⟩ := hwf
    rw [rawWfB, Bool.and_eq_true] at hwfB
    obtain ⟨hd, hb⟩ := hwfB
    obtain ⟨t, ht⟩ := mk_test_ok d .Ignored b hd hb
    rw [countBE, countAE] at hcond
    rw [buildList, ht]
    exact build_dup rest name be ae (acc.snoc t) hwfL hcond
  | .cons (.benchB d bind b) rest, name, be, ae, acc, hwf, hcond => by
    rw [rawWfL, Bool.and_eq_true] at hwf
    obtain ⟨hwfB, hwfL⟩ := hwf
    rw [rawWfB, Bool.and_eq_true] at hwfB
    obtain ⟨hd, hb⟩ := hwfB
    obtain ⟨t, ht⟩ := mk_bench_ok d bind b hd hb
    rw [countBE, countAE] at hcond
    rw [buildList, ht]
    exact build_dup rest name be ae (acc.snoc t) hwfL hcond

/-- C4: a second before_each (or after_each) among the otherwise
well-formed children of a group makes the builder fail with DuplicateHookError, no
matter where among the other children the duplicate occurs; with at most
one hook of each kind, in any position, the group is accepted. -/
theorem duplicate_hook_rejected :
    ∀ (name : String) (cs : RawList), rawWfL cs = true →
      ((2 ≤ countBE cs ∨ 2 ≤ countAE cs) →
        buildList name none none .nil cs = .error .DuplicateHookError) ∧
      (countBE cs ≤ 1 → countAE cs ≤ 1 →
        ∃ g, buildList name none none .nil cs = .ok g) := by
  intro name cs hwf
  constructor
  · intro hdup
    apply build_dup cs name none none .nil hwf
    rcases hdup with h | h
    · exact Or.inl (by rw [hookCount]; omega)
    · exact Or.inr (by rw [hookCount]; omega)
  · intro h1 h2
    exact build_ok cs name none none .nil hwf
      (by rw [hookCount]; omega) (by rw [hookCount]; omega)

/-- Witness: the sample document generates successfully and its normal
test unit, reached along the shifted path, carries the hook-composed
body in the specified order. -/
theorem test_body_composition_witness :
    outChildAt sampleOut [1, 1] =
      some (.unit ("does_the_thing") ExecKind.test ["b0", "b1", "t0", "a1", "a0"]) :=
  test_body_composition sampleDoc [0, 0] ("does the thing") .Normal ["t0"] sampleOut rfl rfl

/-- Witness: the bench unit of the sample document keeps its own body with no
hook statements. -/
theorem bench_body_unmodified_witness :
    outChildAt sampleOut [1, 4] = some (.unit ("fast") (.benchmark ("bench_h")) ["m0"]) :=
  bench_body_unmodified sampleDoc [0, 3] ("fast") ("bench_h") ["m0"] sampleOut rfl rfl

/-- Witness: a hook statement declared in the first sibling group does
not occur in the body of the unit emitted under the second. -/
theorem sibling_hooks_isolated_witness : ("hA" : String) ∉ (["y"] : List String) :=
  sibling_hooks_isolated [] [] [] sibChildren sibOuts rfl 0 1
    (.group ("alpha") (some ["hA"]) none (.cons (.test ("t") .Normal ["x"]) .nil))
    (.group ("beta") none none (.cons (.test ("t") .Normal ["y"]) .nil))
    rfl rfl ("hA") rfl rfl (by simp) (by simp)
    (.container ("beta") (.cons .useSuper (.cons (.unit ("t") .test ["y"]) .nil)))
    rfl ["y"] (by simp [unitBodiesO, unitBodiesL])

/-- Witness: a duplicated before_each among otherwise well-formed
children is rejected with DuplicateHookError, and a sequence with one
hook of each kind is accepted. -/
theorem duplicate_hook_rejected_witness :
    buildList ("g") none none .nil dupRaw = .error .DuplicateHookError ∧
    ∃ g, buildList ("g") none none .nil okRaw = .ok g :=
  ⟨(duplicate_hook_rejected ("g") dupRaw rfl).1 (Or.inl (by decide)),
   (duplicate_hook_rejected ("g") okRaw rfl).2 (by decide) (by decide)⟩

/-- Witness: the mangler on a concrete description and sibling set is
deterministic and canonical. -/
theorem mangler_deterministic_canonical_witness :
    mangleIn ["other"] ("Make it-3  FAST!") = mangleIn ["other"] ("Make it-3  FAST!") ∧
    ((mangle ("Make it-3  FAST!")).data.all fun c => isIdentChar c && !c.isUpper) = true ∧
    List.Chain' (fun a b => ¬(a = '_' ∧ b = '_')) (mangle ("Make it-3  FAST!")).data :=
  mangler_deterministic_canonical ["other"] ("Make it-3  FAST!")

/-- Witness: two sibling tests with the same description make generation
fail with IdentifierCollisionError, while the sample document — whose
groups reuse no identifier within one scope — generates successfully. -/
theorem identifier_collision_scoped_witness :
    generate (.group ("g") none none (.cons (.test ("same") .Normal ["x"]) (.cons
      (.test ("same") .Normal ["y"]) .nil))) = .error .IdentifierCollisionError ∧
    ∃ out, generate (.group ("g") none none (.cons (.test ("same") .Normal ["x"]) (.cons
      (.group ("inner") none none (.cons (.test ("same") .Normal ["y"]) .nil)) .nil))) =
      .ok out :=
  ⟨(identifier_collision_scoped ("g") none none (.cons (.test ("same") .Normal ["x"]) (.cons
      (.test ("same") .Normal ["y"]) .nil))).2.mpr (by decide),
   (identifier_collision_scoped ("g") none none (.cons (.test ("same") .Normal ["x"]) (.cons
      (.group ("inner") none none (.cons (.test ("same") .Normal ["y"]) .nil)) .nil))).1.mpr
      (by decide)⟩

/-- Witness: the ignored test of the sample document is present in the output
tree and marked skipped. -/
theorem ignored_unit_present_skipped_witness :
    ∃ body, outChildAt sampleOut [1, 2] = some (.unit ("skips") ExecKind.testSkip body) :=
  ignored_unit_present_skipped sampleDoc [0, 1] ("skips") ["t1"] sampleOut rfl rfl

/-- Witness: the failing test of the sample document yields an expect-failure
unit carrying its pattern, with the documented acceptance behaviour. -/
theorem failing_unit_expects_failure_witness :
    (∃ body, outChildAt sampleOut [1, 3] =
        some (.unit ("blows_up") (.testExpectFailure (some ("boom"))) body)) ∧
    (∀ m, accepts (.testExpectFailure none) (.panicked m) = true) ∧
    (∀ q, accepts (.testExpectFailure q) .normal = false) ∧
    (∀ q m, accepts (.testExpectFailure (some q)) (.panicked m) =
      decide (List.IsInfix q.data m.data)) :=
  failing_unit_expects_failure sampleDoc [0, 2] ("blows up") (some ("boom")) ["t2"]
    sampleOut rfl rfl

/-- Witness: the transformation of a concrete raw document is
all-or-nothing with a complete unit set. -/
theorem transform_all_or_nothing_witness :
    (∃ e, transform (.describeB ("top") dupRaw) = .error e) ∨
    (∃ out, transform (.describeB ("top") dupRaw) = .ok out ∧
      unitCountO out = rawLeafB (.describeB ("top") dupRaw)) :=
  transform_all_or_nothing (.describeB ("top") dupRaw)

/-- Witness: every container of the emitted tree of the sample document
begins with the silent `pub use super` item. -/
theorem every_container_begins_use_super_witness : beginsUseSuperO sampleOut = true :=
  every_container_begins_use_super sampleDoc sampleOut rfl

end Stainless
